import Mathlib

/-!
WebM-Dynamic-Resolution: a verification development.

A shallow embedding of `main.go` / `structs.go`.  Go strings are modelled as
lists of Unicode characters (`List Char`), Go `int` as `Int` wrapped to 64
bits where arithmetic is performed, and every call that leaves the process
(ffmpeg, the file system, the image library, the random source) is modelled
by an explicit record of what the outside world answers.
-/

namespace WebmDynRes

/-! ## Go standard-library string helpers -/

/-- Go `unicode.IsSpace`: the Latin-1 white space characters and the other
code points with the Unicode White_Space property. -/
def isSpace (c : Char) : Bool :=
  let n := c.toNat
  (9 ≤ n && n ≤ 13) || n == 32 || n == 0x85 || n == 0xA0 || n == 0x1680 ||
  (0x2000 ≤ n && n ≤ 0x200A) || n == 0x2028 || n == 0x2029 || n == 0x202F ||
  n == 0x205F || n == 0x3000

/-- Go `strings.TrimSpace`: drop leading and trailing white space. -/
def trimSpace (s : List Char) : List Char :=
  ((s.dropWhile isSpace).reverse.dropWhile isSpace).reverse

/-- Go `strings.Split(s, "\n")`: the pieces between line feeds; a text with
`n` line feeds gives `n + 1` pieces, the empty text gives one empty piece. -/
def splitLines : List Char → List (List Char)
  | [] => [[]]
  | c :: cs =>
    if c = '\n' then [] :: splitLines cs
    else
      match splitLines cs with
      | [] => [[c]]
      | l :: ls => (c :: l) :: ls

/-- The pieces of a path between `/` separators (empty pieces included). -/
def splitSlash : List Char → List (List Char)
  | [] => [[]]
  | c :: cs =>
    if c = '/' then [] :: splitSlash cs
    else
      match splitSlash cs with
      | [] => [[c]]
      | l :: ls => (c :: l) :: ls

/-- Go `strings.HasPrefix`. -/
def hasPrefix (s pre : List Char) : Bool := pre.isPrefixOf s

/-- Go `strings.HasSuffix`. -/
def hasSuffix (s suf : List Char) : Bool := suf.isSuffixOf s

/-! ## A backtracking matcher for the regular expressions the program uses

Go's `regexp` returns the leftmost match and, among the matches starting
there, the one a backtracking search finds first.  `Regex.run` lists the ways
a pattern can match a prefix of the input in exactly that order. -/

/-- Regular expressions, as far as `frameRateRegexStr` needs them. -/
inductive Regex where
  | lit (c : Char)
  | plusClass (p : Char → Bool)
  | seq (a b : Regex)
  | alt (a b : Regex)

/-- Greedy `x+` for a character class: every non-empty run of matching
characters at the head of the input, the longest first. -/
def plusRun (p : Char → Bool) : List Char → List (List Char × List Char)
  | [] => []
  | c :: cs =>
    if p c then (plusRun p cs).map (fun mr => (c :: mr.1, mr.2)) ++ [([c], cs)]
    else []

/-- All matches of a pattern at the head of the input, as pairs (matched
text, remaining input), in backtracking order. -/
def Regex.run : Regex → List Char → List (List Char × List Char)
  | .lit c, s =>
    match s with
    | [] => []
    | d :: ds => if d = c then [([d], ds)] else []
  | .plusClass p, s => plusRun p s
  | .seq a b, s =>
    (a.run s).flatMap (fun m1 => (b.run m1.2).map (fun m2 => (m1.1 ++ m2.1, m2.2)))
  | .alt a b, s => a.run s ++ b.run s

/-- The class `\d`: ASCII decimal digits. -/
def isDigit (c : Char) : Bool := c.isDigit

/-- The capture group `(\d+\.\d+|\d+)` of `frameRateRegexStr`. -/
def frameRateGroup : Regex :=
  .alt (.seq (.plusClass isDigit) (.seq (.lit '.') (.plusClass isDigit)))
       (.plusClass isDigit)

/-- The rest of `frameRateRegexStr` after the group: the literal ` fps`. -/
def frameRateTail : Regex :=
  .seq (.lit ' ') (.seq (.lit 'f') (.seq (.lit 'p') (.lit 's')))

/-- A match of `(group)rest` anchored at the head of the input: the text of
the group in the first successful backtracking branch. -/
def submatchAt (group rest : Regex) (s : List Char) : Option (List Char) :=
  ((group.run s).find? (fun m => !(rest.run m.2).isEmpty)).map (fun m => m.1)

/-- Go `regexp.FindStringSubmatch` for a pattern `(group)rest`, reduced to
its element 1 (the group's text): the match at the leftmost position that has
one; `none` stands for the `nil` result. -/
def findStringSubmatch1 (group rest : Regex) : List Char → Option (List Char)
  | [] => submatchAt group rest []
  | c :: cs =>
    match submatchAt group rest (c :: cs) with
    | some m => some m
    | none => findStringSubmatch1 group rest cs

/-! ## `extractFrameRate` -/

/-- The loop of `extractFrameRate` over the lines of the text: each line is
trimmed, and the first trimmed line that begins with `Stream` and matches
`frameRateRegexStr` gives the result (`match[1]`); the empty string when the
loop runs out of lines. -/
def extractFrameRateLoop : List (List Char) → List Char
  | [] => []
  | rawLine :: rest =>
    let line := trimSpace rawLine
    if hasPrefix line "Stream".data then
      match findStringSubmatch1 frameRateGroup frameRateTail line with
      | some m => m
      | none => extractFrameRateLoop rest
    else extractFrameRateLoop rest

/-- `extractFrameRate` of `main.go`. -/
def extractFrameRate (out : String) : String :=
  String.mk (extractFrameRateLoop (splitLines out.data))

/-- The lines of the diagnostic text, each one trimmed: what the loop of
`extractFrameRate` tests and matches. -/
def trimmedLines (out : String) : List (List Char) :=
  (splitLines out.data).map trimSpace

/-- The loop of `extractFrameRate` on lines that are trimmed already. -/
def scanLines : List (List Char) → List Char
  | [] => []
  | line :: rest =>
    if hasPrefix line "Stream".data then
      match findStringSubmatch1 frameRateGroup frameRateTail line with
      | some m => m
      | none => scanLines rest
    else scanLines rest

/-! ## Go `int` -/

/-- Two's-complement wrap of an integer to the 64-bit range of Go's `int`. -/
def wrapInt (v : Int) : Int := (v + 2 ^ 63) % 2 ^ 64 - 2 ^ 63

/-- Go `a + b` on `int`. -/
def addInt (a b : Int) : Int := wrapInt (a + b)

/-! ## Go `path/filepath` (slash-separated paths) -/

/-- Go `filepath.Base`: the last element of the path, after removing trailing
separators; `.` for the empty path, `/` for a path of separators only. -/
def filepathBase (path : List Char) : List Char :=
  if path = [] then ['.']
  else
    let stripped := (path.reverse.dropWhile (fun c => c == '/')).reverse
    let last := (stripped.reverse.takeWhile (fun c => c != '/')).reverse
    if last = [] then ['/'] else last

/-- One path element in `filepath.Clean`; `stack` holds the elements kept so
far, the most recent first. -/
def cleanStep (rooted : Bool) (stack : List (List Char)) (comp : List Char) :
    List (List Char) :=
  if comp = [] ∨ comp = ['.'] then stack
  else if comp = ['.', '.'] then
    match stack with
    | top :: below => if top = ['.', '.'] then comp :: stack else below
    | [] => if rooted then [] else [comp]
  else comp :: stack

/-- Go `filepath.Clean`: single separators, no `.` elements, inner `..`
elements removed together with the element before them, no `..` at the start
of a rooted path; `.` when nothing is left. -/
def filepathClean (path : List Char) : List Char :=
  let rooted := path.head? == some '/'
  let comps := ((splitSlash path).foldl (cleanStep rooted) []).reverse
  let body := List.intercalate ['/'] comps
  let out := if rooted then '/' :: body else body
  if out = [] then ['.'] else out

/-- Go `filepath.Join` of two elements: empty elements are ignored, the rest
is joined by a separator and cleaned. -/
def filepathJoin (a b : String) : String :=
  if a ≠ "" then String.mk (filepathClean (a.data ++ '/' :: b.data))
  else if b ≠ "" then String.mk (filepathClean b.data)
  else ""

/-- Go `fmt.Sprintf("%04d", i)` for a non-negative `i`: decimal, padded with
zeros on the left to at least four digits. -/
def sprintf04d (i : Nat) : String :=
  let ds := Nat.toDigits 10 i
  String.mk (List.replicate (4 - ds.length) '0' ++ ds)

/-! ## The outside world -/

/-- What running a subprocess gives: the error of `cmd.Run()` (`none` for
`nil`, that is exit status zero) and the text captured from its stderr. -/
structure CmdResult where
  err : Option String
  stderr : String

/-- A call that leaves the process, with its arguments: `os.MkdirAll`
(which makes a directory named `path` and every missing parent of it),
`os.MkdirTemp`, `os.RemoveAll`, `fmt.Println`, `exec.Command(...).Run`,
`ioutil.ReadDir`, `os.Rename`, `imaging.Save` (with the size of the image
saved), `os.OpenFile` and `File.WriteString`. -/
inductive Effect where
  | mkdirAll (path : String) (perm : Nat)
  | mkdirTemp (dir pattern : String)
  | removeAll (path : String)
  | println (text : String)
  | exec (name : String) (args : List String)
  | readDir (path : String)
  | rename (oldPath newPath : String)
  | saveImage (path : String) (width height : Int)
  | openFile (path : String) (perm : Nat)
  | writeString (path text : String)
deriving DecidableEq, Repr

/-! ## `structs.go` and `parseArgs` -/

/-- `Args` of `structs.go`. -/
structure Args where
  InPath : String
  Mode : Int
  OutPath : String
deriving DecidableEq, Repr

/-- `parseArgs` of `main.go`, applied to the arguments `arg.MustParse` has
filled in. -/
def parseArgs (args : Args) : Except String Args :=
  if ¬ (args.Mode = 1 ∨ args.Mode = 2) then
    .error "Mode must me 1 or 2."
  else if ¬ (hasSuffix args.OutPath.data ".webm".data = true) then
    .error "Output file extension must be \".webm\"."
  else .ok args

/-- `handleErr` of `main.go`: the text it panics with. -/
def handleErr (errText err : String) : String := errText ++ "\n" ++ err

/-! ## `makeDirs` -/

/-- `makeDirs` of `main.go`.  `mkdirAllErr` is what `os.MkdirAll` answers if
it is called.  Returns the calls made and the error (`none` for `nil`). -/
def makeDirs (path : String) (mkdirAllErr : Option String) : List Effect × Option String :=
  let base := String.mk (filepathBase path.data)
  if base ≠ path then ([Effect.mkdirAll path 0o755], mkdirAllErr)
  else ([], none)

/-! ## `extractFrames` -/

/-- The ffmpeg command line `extractFrames` builds. -/
def extractFramesArgs (vidPath tempPath : String) : List String :=
  ["-hide_banner", "-i", vidPath, filepathJoin tempPath "out%04d.png"]

/-- `extractFrames` of `main.go`; `run` is the outcome of the ffmpeg run. -/
def extractFrames (run : CmdResult) : Except String String :=
  match run.err with
  | some err => .error (err ++ "\n" ++ run.stderr)
  | none =>
    let frameRate := extractFrameRate run.stderr
    if frameRate = "" then .error "No regex match for frame rate."
    else .ok frameRate

/-! ## `getFrameBases` -/

/-- The loop of `getFrameBases`: `i` runs from `i` up to `n`. -/
def frameBasesFrom (tempPath : String) (i : Nat) : Nat → List String
  | 0 => []
  | todo + 1 => filepathJoin tempPath ("out" ++ sprintf04d i) :: frameBasesFrom tempPath (i + 1) todo

/-- `getFrameBases` of `main.go`; `readDir` is what `ioutil.ReadDir` answers:
the names of the entries of the directory, or an error.  A slice is far
shorter than `2^63 - 1`, so `len(files)+1` and `i++` do not wrap. -/
def getFrameBases (tempPath : String) (readDir : Except String (List String)) :
    Except String (List String) :=
  match readDir with
  | .error err => .error err
  | .ok files => .ok (frameBasesFrom tempPath 1 files.length)

/-! ## `genRandom` and `resizeImages` -/

/-- The process-wide random source: the value the `i`-th call of
`rand.Intn(1000)` returns, an integer of the half-open range `[0, 1000)`. -/
abbrev RandSource := Nat → Fin 1000

/-- `genRandom` of `main.go`, with the number of draws made so far passed
through: the drawn size and the new number of draws. -/
def genRandom (rand : RandSource) (calls : Nat) : Int × Nat :=
  (addInt ((rand calls).val : Int) 50, calls + 1)

/-- One frame as `resizeImages` meets it: its frame base, what
`imaging.Open(base + ".png")` answers (the `Max` corner of the bounds of the
decoded image, whose bounds start at the origin: its width and height), and
the error of writing `base + "_r.png"` (`os.Rename` for the first frame,
`imaging.Save` for the others; `none` for `nil`). -/
structure FrameInput where
  base : String
  opened : Except String (Int × Int)
  writeErr : Option String

/-- A resized frame image on disk. -/
structure Resized where
  source : String
  path : String
  width : Int
  height : Int
  renamed : Bool
deriving DecidableEq, Repr

/-- The variables of `resizeImages`: `x`, `y`, `img` (the size of the image
`imaging.Resize` was last asked for, `none` for `nil`), the number of random
draws made, and the files written so far. -/
structure ResizeState where
  x : Int
  y : Int
  img : Option (Int × Int)
  calls : Nat
  written : List Resized

/-- The `switch mode` of `resizeImages`. -/
def resizeSwitch (mode : Int) (rand : RandSource) (st : ResizeState) : ResizeState :=
  if mode = 1 then
    let w := genRandom rand st.calls
    let h := genRandom rand w.2
    { st with img := some (w.1, h.1), calls := h.2 }
  else if mode = 2 then
    let x := addInt st.x 20
    let y := addInt st.y 20
    { st with x := x, y := y, img := some (x, y) }
  else st

/-- One iteration of the loop of `resizeImages` (`i` is the loop index).
When no case of the switch has assigned `img`, `imaging.Save` receives a nil
image; the model reports that as an error. -/
def resizeStep (mode : Int) (rand : RandSource) (i : Nat) (f : FrameInput) (st : ResizeState) :
    Except String ResizeState :=
  match f.opened with
  | .error err => .error err
  | .ok b =>
    if i = 0 then
      match f.writeErr with
      | some err => .error err
      | none =>
        .ok { st with x := b.1, y := b.2,
                      written := st.written ++ [⟨f.base ++ ".png", f.base ++ "_r.png", b.1, b.2, true⟩] }
    else
      let st1 := resizeSwitch mode rand st
      match st1.img with
      | none => .error "nil image"
      | some size =>
        match f.writeErr with
        | some err => .error err
        | none =>
          .ok { st1 with written := st1.written ++ [⟨f.base ++ ".png", f.base ++ "_r.png", size.1, size.2, false⟩] }

/-- The loop of `resizeImages` from index `i` on: the final state and the
error returned (`none` for `nil`). -/
def resizeLoop (mode : Int) (rand : RandSource) :
    Nat → List FrameInput → ResizeState → ResizeState × Option String
  | _, [], st => (st, none)
  | i, f :: fs, st =>
    match resizeStep mode rand i f st with
    | .error err => (st, some err)
    | .ok st1 => resizeLoop mode rand (i + 1) fs st1

/-- `resizeImages` of `main.go`; `calls` is the number of random draws made
before the call. -/
def resizeImages (frames : List FrameInput) (mode : Int) (rand : RandSource) (calls : Nat) :
    ResizeState × Option String :=
  resizeLoop mode rand 0 frames ⟨0, 0, none, calls, []⟩

/-- The sizes of the resized frame images, in the order written. -/
def sizesOf (st : ResizeState) : List (Int × Int) :=
  st.written.map (fun r => (r.width, r.height))

/-- What the growing mode is to write for the frames after a frame of target
size `(x, y)`: each frame 20 wider and 20 taller than the one before. -/
def growingOutputs (x y : Int) : List FrameInput → List Resized
  | [] => []
  | f :: fs =>
    ⟨f.base ++ ".png", f.base ++ "_r.png", x + 20, y + 20, false⟩ ::
      growingOutputs (x + 20) (y + 20) fs

/-- The bounds the random mode keeps: a resized (not renamed) frame image is
between 50 and 1049 pixels wide and high. -/
def RandomSized (r : Resized) : Prop :=
  r.renamed = false → (50 ≤ r.width ∧ r.width ≤ 1049) ∧ (50 ≤ r.height ∧ r.height ≤ 1049)

/-! ## `framesToWebms` -/

/-- The ffmpeg command line `framesToWebms` builds for one frame. -/
def frameToWebmArgs (base frameRate : String) : List String :=
  ["-hide_banner", "-loglevel", "error", "-framerate", frameRate,
   "-f", "image2", "-i", base ++ "_r.png", "-c:v",
   "libvpx-vp9", "-pix_fmt", "yuva420p", base ++ ".webm"]

/-- The loop of `framesToWebms` from index `i` on; `errBuffer` is the stderr
text gathered by the runs before.  Returns the command lines run and the
error (`none` for `nil`). -/
def framesToWebmsLoop (frameRate : String) (runs : Nat → CmdResult) :
    Nat → String → List String → List (List String) × Option String
  | _, _, [] => ([], none)
  | i, errBuffer, base :: rest =>
    let buf := errBuffer ++ (runs i).stderr
    match (runs i).err with
    | some err => ([frameToWebmArgs base frameRate], some (err ++ "\n" ++ buf))
    | none =>
      let r := framesToWebmsLoop frameRate runs (i + 1) buf rest
      (frameToWebmArgs base frameRate :: r.1, r.2)

/-- `framesToWebms` of `main.go`; `runs i` is the outcome of the `i`-th
ffmpeg run. -/
def framesToWebms (frameBases : List String) (frameRate : String) (runs : Nat → CmdResult) :
    List (List String) × Option String :=
  framesToWebmsLoop frameRate runs 0 "" frameBases

/-! ## `concatWebms` -/

/-- How a function of the program ends: it returns `nil`, returns an error,
or panics. -/
inductive Outcome where
  | ok
  | error (err : String)
  | panic (text : String)
deriving DecidableEq, Repr

/-- The line `concatWebms` writes for one frame base. -/
def manifestLine (base : String) : String := "file '" ++ base ++ ".webm'\n"

/-- The write loop of `concatWebms` from index `i` on: the text written and
the error of the write that failed, if one did. -/
def writeManifest (writeErr : Nat → Option String) : Nat → List String → String × Option String
  | _, [] => ("", none)
  | i, base :: rest =>
    match writeErr i with
    | some err => ("", some err)
    | none =>
      let r := writeManifest writeErr (i + 1) rest
      (manifestLine base ++ r.1, r.2)

/-- The ffmpeg command line `concatWebms` builds. -/
def concatArgs (concatPath outPath : String) : List String :=
  ["-hide_banner", "-loglevel", "error", "-f", "concat", "-safe",
   "0", "-i", concatPath, "-c", "copy", "-y", outPath]

/-- What `concatWebms` did: the manifest text it wrote (`none` when the file
could not be opened), whether it ran ffmpeg, and how it ended. -/
structure ConcatResult where
  manifest : Option String
  ranFfmpeg : Bool
  outcome : Outcome
deriving DecidableEq, Repr

/-- `concatWebms` of `main.go`; `openErr` is the error of `os.OpenFile`,
`writeErr i` the error of the `i`-th `WriteString`, `run` the outcome of the
ffmpeg run. -/
def concatWebms (frameBases : List String) (openErr : Option String)
    (writeErr : Nat → Option String) (run : CmdResult) : ConcatResult :=
  match openErr with
  | some err => ⟨none, false, .error err⟩
  | none =>
    let w := writeManifest writeErr 0 frameBases
    match w.2 with
    | some err => ⟨some w.1, false, .error err⟩
    | none =>
      match run.err with
      | some err => ⟨some w.1, true, .panic (err ++ "\n" ++ run.stderr)⟩
      | none => ⟨some w.1, true, .ok⟩

/-! ## `main` -/

/-- Everything the outside world answers during one run of `main`. -/
structure World where
  mkdirAllErr : Option String
  tempDir : String
  mkdirTemp : Except String String
  extractRun : CmdResult
  readDir : Except String (List String)
  frameOpened : Nat → Except String (Int × Int)
  frameWriteErr : Nat → Option String
  rand : RandSource
  encodeRun : Nat → CmdResult
  manifestOpenErr : Option String
  manifestWriteErr : Nat → Option String
  concatRun : CmdResult

/-- The frame bases together with what the world answers for each frame,
from loop index `i` on. -/
def frameInputs (w : World) : Nat → List String → List FrameInput
  | _, [] => []
  | i, base :: rest => ⟨base, w.frameOpened i, w.frameWriteErr i⟩ :: frameInputs w (i + 1) rest

/-- The call that wrote a resized frame image. -/
def resizedEffect (r : Resized) : Effect :=
  if r.renamed then .rename r.source r.path else .saveImage r.path r.width r.height

/-- The calls `concatWebms` made. -/
def concatEffects (concatPath outPath : String) (c : ConcatResult) : List Effect :=
  [Effect.openFile concatPath 0o755] ++
  (match c.manifest with
   | some text => [Effect.writeString concatPath text]
   | none => []) ++
  (if c.ranFfmpeg then [Effect.exec "ffmpeg" (concatArgs concatPath outPath)] else [])

/-- The part of `main` after the scratch directory exists, up to the point
where the deferred `os.RemoveAll` runs: the calls made and how it ends. -/
def pipeline (args : Args) (tempPath : String) (w : World) : List Effect × Outcome :=
  let concatPath := filepathJoin tempPath "concat.txt"
  let fx0 := [Effect.println "Extracting frames...",
              Effect.exec "ffmpeg" (extractFramesArgs args.InPath tempPath)]
  match extractFrames w.extractRun with
  | .error err => (fx0, .panic err)
  | .ok frameRate =>
    let fx1 := fx0 ++ [Effect.readDir tempPath]
    match getFrameBases tempPath w.readDir with
    | .error err => (fx1, .panic err)
    | .ok frameBases =>
      let r := resizeImages (frameInputs w 0 frameBases) args.Mode w.rand 0
      let fx2 := fx1 ++ [Effect.println "Resizing frames..."] ++ r.1.written.map resizedEffect
      match r.2 with
      | some err => (fx2, .panic err)
      | none =>
        let e := framesToWebms frameBases frameRate w.encodeRun
        let fx3 := fx2 ++ [Effect.println "Frames -> WebMs..."] ++ e.1.map (Effect.exec "ffmpeg")
        match e.2 with
        | some err => (fx3, .panic err)
        | none =>
          let c := concatWebms frameBases w.manifestOpenErr w.manifestWriteErr w.concatRun
          let fx4 := fx3 ++ [Effect.println "Concatting WebMs..."] ++
            concatEffects concatPath args.OutPath c
          match c.outcome with
          | .ok => (fx4, .ok)
          | .error err => (fx4, .panic err)
          | .panic text => (fx4, .panic text)

/-- `main` of `main.go`, applied to the arguments `arg.MustParse` has filled
in: the calls made, in order, and how the process ends. -/
def main (rawArgs : Args) (w : World) : List Effect × Outcome :=
  match parseArgs rawArgs with
  | .error err => ([], .panic (handleErr "Failed to parse args." err))
  | .ok args =>
    let m := makeDirs args.OutPath w.mkdirAllErr
    match m.2 with
    | some err => (m.1, .panic (handleErr "Failed to make output path." err))
    | none =>
      let fx := m.1 ++ [Effect.mkdirTemp w.tempDir ""]
      match w.mkdirTemp with
      | .error err => (fx, .panic (handleErr "Failed to make temp directory." err))
      | .ok tempPath =>
        let r := pipeline args tempPath w
        (fx ++ r.1 ++ [Effect.removeAll tempPath], r.2)

/-- A world in which every call succeeds: `n` extracted frames of size
640x480 at 24 fps in the scratch directory `/tmp/1`. -/
def sampleWorld (n : Nat) : World where
  mkdirAllErr := none
  tempDir := "/tmp"
  mkdirTemp := .ok "/tmp/1"
  extractRun := ⟨none, "Input #0, mov, from in.mp4:\n  Stream #0:0: Video: h264, 640x480, 24 fps, 24 tbr\n"⟩
  readDir := .ok (List.replicate n "x")
  frameOpened := fun _ => .ok (640, 480)
  frameWriteErr := fun _ => none
  rand := fun _ => 0
  encodeRun := fun _ => ⟨none, ""⟩
  manifestOpenErr := none
  manifestWriteErr := fun _ => none
  concatRun := ⟨none, ""⟩

/-! ## Specification vocabulary for the frame-rate pattern -/

/-- A non-empty run of ASCII decimal digits. -/
def IsDigits (t : List Char) : Prop := t ≠ [] ∧ ∀ c ∈ t, isDigit c = true

/-- An integer (`digits`) or a decimal number (`digits.digits`). -/
def IsNumber (t : List Char) : Prop :=
  IsDigits t ∨ ∃ a b, IsDigits a ∧ IsDigits b ∧ t = a ++ '.' :: b

/-- The number `t` stands at offset `p` of `line`, immediately followed by
the literal text ` fps`. -/
def FpsAt (line : List Char) (p : Nat) (t : List Char) : Prop :=
  IsNumber t ∧ ∃ rest, line.drop p = t ++ (" fps".data ++ rest)

/-- The line contains a number immediately followed by ` fps`. -/
def HasFps (line : List Char) : Prop := ∃ p t, FpsAt line p t

/-- The number `t` is the one of the leftmost place of `line` where a number
is immediately followed by ` fps`. -/
def LeftmostRate (line t : List Char) : Prop :=
  ∃ p, FpsAt line p t ∧ ∀ q < p, ∀ u, ¬ FpsAt line q u

/-- A trimmed line that `extractFrameRate` can take the rate from: it begins
with `Stream` and contains a number immediately followed by ` fps`. -/
def RateLine (line : List Char) : Prop :=
  hasPrefix line "Stream".data = true ∧ HasFps line

/-- The characters a number is made of. -/
def isNumberChar (c : Char) : Bool := isDigit c || c == '.'

/-! ## Lemmas on the matcher -/

theorem plusRun_mem (p : Char → Bool) (s m r : List Char) :
    (m, r) ∈ plusRun p s ↔ (m ≠ [] ∧ (∀ c ∈ m, p c = true) ∧ s = m ++ r) := by
  induction s generalizing m r with
  | nil =>
    simp only [plusRun, List.not_mem_nil, false_iff]
    rintro ⟨hne, -, h⟩
    cases m with
    | nil => exact hne rfl
    | cons a m => simp at h
  | cons c cs ih =>
    unfold plusRun
    by_cases hc : p c = true
    · simp only [hc, if_true, List.mem_append, List.mem_map, List.mem_singleton, Prod.mk.injEq,
        Prod.exists]
      constructor
      · rintro (⟨a, b, hab, rfl, rfl⟩ | ⟨rfl, rfl⟩)
        · obtain ⟨h1, h2, h3⟩ := (ih a b).1 hab
          refine ⟨by simp, ?_, by simp [h3]⟩
          intro x hx
          rcases List.mem_cons.1 hx with rfl | hx
          · exact hc
          · exact h2 x hx
        · refine ⟨by simp, ?_, by simp⟩
          intro x hx
          simp at hx
          subst hx
          exact hc
      · rintro ⟨hne, hall, heq⟩
        cases m with
        | nil => exact absurd rfl hne
        | cons a m =>
          simp only [List.cons_append, List.cons.injEq] at heq
          obtain ⟨rfl, rfl⟩ := heq
          cases m with
          | nil => right; simp
          | cons b m =>
            left
            refine ⟨b :: m, r, (ih (b :: m) r).2 ⟨by simp, ?_, rfl⟩, rfl, rfl⟩
            intro x hx
            exact hall x (List.mem_cons_of_mem _ hx)
    · simp only [hc, Bool.false_eq_true, if_false, List.not_mem_nil, false_iff]
      rintro ⟨hne, hall, heq⟩
      cases m with
      | nil => exact hne rfl
      | cons a m =>
        simp only [List.cons_append, List.cons.injEq] at heq
        obtain ⟨rfl, -⟩ := heq
        exact hc (hall c (List.mem_cons_self _ _))

theorem plusRun_digits_mem (s m r : List Char) :
    (m, r) ∈ plusRun isDigit s ↔ (IsDigits m ∧ s = m ++ r) := by
  rw [plusRun_mem]
  unfold IsDigits
  tauto

theorem lit_run_mem (c : Char) (s m r : List Char) :
    (m, r) ∈ (Regex.lit c).run s ↔ (m = [c] ∧ s = c :: r) := by
  cases s with
  | nil => simp [Regex.run]
  | cons d ds =>
    simp only [Regex.run]
    by_cases h : d = c
    · subst h
      simp
      tauto
    · simp only [h, if_false, List.not_mem_nil, List.cons.injEq, false_iff]
      rintro ⟨-, h1⟩
      simp at h1

theorem frameRateGroup_run_mem (s m r : List Char) :
    (m, r) ∈ frameRateGroup.run s ↔ (IsNumber m ∧ s = m ++ r) := by
  unfold frameRateGroup IsNumber
  simp only [Regex.run, List.mem_append, List.mem_flatMap, List.mem_map, Prod.exists,
    Prod.mk.injEq, plusRun_digits_mem]
  have hl := lit_run_mem
  simp only [Regex.run] at hl
  constructor
  · rintro (⟨a, ra, ⟨ha, rfl⟩, m2, r2, ⟨d, rd, hd, e, rb, ⟨hb, rfl⟩, rfl, rfl⟩, rfl, rfl⟩ | ⟨h1, h2⟩)
    · obtain ⟨rfl, rfl⟩ := (hl _ _ _ _).1 hd
      exact ⟨Or.inr ⟨a, e, ha, hb, by simp⟩, by simp⟩
    · exact ⟨Or.inl h1, h2⟩
  · rintro ⟨h1 | ⟨a, b, ha, hb, rfl⟩, h2⟩
    · exact Or.inr ⟨h1, h2⟩
    · left
      refine ⟨a, '.' :: b ++ r, ⟨ha, by simp [h2]⟩, '.' :: b, r, ?_, rfl, rfl⟩
      refine ⟨['.'], b ++ r, (hl _ _ _ _).2 ⟨rfl, rfl⟩, b, r, ⟨hb, rfl⟩, rfl, rfl⟩

theorem frameRateTail_run (r : List Char) :
    (frameRateTail.run r).isEmpty = false ↔ ∃ rest, r = " fps".data ++ rest := by
  constructor
  · intro h
    rcases r with _ | ⟨a, _ | ⟨b, _ | ⟨c, _ | ⟨d, rest⟩⟩⟩⟩ <;>
      simp only [frameRateTail, Regex.run] at h <;>
      (try split_ifs at h) <;> simp_all
  · rintro ⟨rest, rfl⟩
    simp [frameRateTail, Regex.run]

theorem takeWhile_append_stop {p : Char → Bool} (t : List Char) (x : Char) (r : List Char)
    (ht : ∀ c ∈ t, p c = true) (hx : p x = false) : (t ++ x :: r).takeWhile p = t := by
  induction t with
  | nil => simp [List.takeWhile, hx]
  | cons a t ih =>
    have ha : p a = true := ht a (List.mem_cons_self _ _)
    have := ih (fun c hc => ht c (List.mem_cons_of_mem _ hc))
    simp [List.takeWhile_cons, ha, this]

theorem IsNumber.chars {t : List Char} (h : IsNumber t) : ∀ c ∈ t, isNumberChar c = true := by
  rcases h with h | ⟨a, b, ha, hb, rfl⟩
  · intro c hc
    simp [isNumberChar, h.2 c hc]
  · intro c hc
    simp only [List.mem_append, List.mem_cons] at hc
    rcases hc with hc | rfl | hc
    · simp [isNumberChar, ha.2 c hc]
    · simp [isNumberChar]
    · simp [isNumberChar, hb.2 c hc]

theorem IsNumber.ne_nil {t : List Char} (h : IsNumber t) : t ≠ [] := by
  rcases h with h | ⟨a, b, -, -, rfl⟩
  · exact h.1
  · simp

/-- At a given place at most one number is immediately followed by ` fps`. -/
theorem number_fps_unique {t t2 r r2 : List Char} (h : IsNumber t) (h2 : IsNumber t2)
    (e : t ++ (" fps".data ++ r) = t2 ++ (" fps".data ++ r2)) : t = t2 := by
  have hs : isNumberChar ' ' = false := by decide
  have e1 := takeWhile_append_stop t ' ' ("fps".data ++ r) h.chars hs
  have e2 := takeWhile_append_stop t2 ' ' ("fps".data ++ r2) h2.chars hs
  have e3 : t ++ ' ' :: ("fps".data ++ r) = t2 ++ ' ' :: ("fps".data ++ r2) := e
  rw [← e1, ← e2, e3]

theorem submatchAt_some {s t : List Char}
    (h : submatchAt frameRateGroup frameRateTail s = some t) :
    IsNumber t ∧ ∃ rest, s = t ++ (" fps".data ++ rest) := by
  unfold submatchAt at h
  rw [Option.map_eq_some'] at h
  obtain ⟨⟨m, r⟩, hf, rfl⟩ := h
  have hmem := List.mem_of_find?_eq_some hf
  have hp := List.find?_some hf
  obtain ⟨hn, rfl⟩ := (frameRateGroup_run_mem _ _ _).1 hmem
  simp only [Bool.not_eq_true] at hp
  obtain ⟨rest, rfl⟩ := (frameRateTail_run r).1 (by simpa using hp)
  exact ⟨hn, rest, rfl⟩

theorem submatchAt_none {s : List Char}
    (h : submatchAt frameRateGroup frameRateTail s = none) (t rest : List Char)
    (hn : IsNumber t) : s ≠ t ++ (" fps".data ++ rest) := by
  rintro rfl
  unfold submatchAt at h
  rw [Option.map_eq_none', List.find?_eq_none] at h
  have hmem := (frameRateGroup_run_mem (t ++ (" fps".data ++ rest)) t (" fps".data ++ rest)).2
    ⟨hn, rfl⟩
  have h2 := (frameRateTail_run (" fps".data ++ rest)).2 ⟨rest, rfl⟩
  have := h _ hmem
  simp only [h2, Bool.not_false, not_true_eq_false] at this

/-- The leftmost search returns the number at the first offset where a number
is immediately followed by ` fps`. -/
theorem findStringSubmatch1_some {s t : List Char}
    (h : findStringSubmatch1 frameRateGroup frameRateTail s = some t) :
    LeftmostRate s t := by
  induction s with
  | nil =>
    have := submatchAt_some h
    exact ⟨0, ⟨this.1, by simpa using this.2⟩, by simp⟩
  | cons c cs ih =>
    unfold findStringSubmatch1 at h
    cases hm : submatchAt frameRateGroup frameRateTail (c :: cs) with
    | some m =>
      rw [hm] at h
      cases h
      have := submatchAt_some hm
      exact ⟨0, ⟨this.1, by simpa using this.2⟩, by simp⟩
    | none =>
      rw [hm] at h
      obtain ⟨p, hp, hmin⟩ := ih h
      refine ⟨p + 1, ⟨hp.1, by simpa using hp.2⟩, ?_⟩
      intro q hq u hu
      cases q with
      | zero =>
        obtain ⟨hn, rest, hr⟩ := hu
        exact submatchAt_none hm u rest hn (by simpa using hr)
      | succ q =>
        exact hmin q (by omega) u ⟨hu.1, by simpa using hu.2⟩

/-- The leftmost search fails only when no number is immediately followed by
` fps` anywhere in the line. -/
theorem findStringSubmatch1_none {s : List Char}
    (h : findStringSubmatch1 frameRateGroup frameRateTail s = none) : ¬ HasFps s := by
  induction s with
  | nil =>
    rintro ⟨p, t, hn, rest, hr⟩
    simp at hr
  | cons c cs ih =>
    unfold findStringSubmatch1 at h
    cases hm : submatchAt frameRateGroup frameRateTail (c :: cs) with
    | some m => rw [hm] at h; cases h
    | none =>
      rw [hm] at h
      rintro ⟨p, t, hn, rest, hr⟩
      cases p with
      | zero => exact submatchAt_none hm t rest hn (by simpa using hr)
      | succ p => exact ih h ⟨p, t, hn, rest, by simpa using hr⟩

/-! ## The loop of `extractFrameRate` -/

theorem extractFrameRateLoop_eq_scanLines (raw : List (List Char)) :
    extractFrameRateLoop raw = scanLines (raw.map trimSpace) := by
  induction raw with
  | nil => rfl
  | cons l ls ih => simp only [extractFrameRateLoop, scanLines, List.map_cons, ih]

theorem extractFrameRate_eq_scanLines (out : String) :
    extractFrameRate out = String.mk (scanLines (trimmedLines out)) := by
  unfold extractFrameRate trimmedLines
  rw [extractFrameRateLoop_eq_scanLines]

theorem findStringSubmatch1_of_hasFps {s : List Char} (h : HasFps s) :
    ∃ t, findStringSubmatch1 frameRateGroup frameRateTail s = some t := by
  cases hf : findStringSubmatch1 frameRateGroup frameRateTail s with
  | some t => exact ⟨t, rfl⟩
  | none => exact absurd h (findStringSubmatch1_none hf)

theorem leftmostRate_unique {line t u : List Char} (ht : LeftmostRate line t)
    (hu : LeftmostRate line u) : t = u := by
  obtain ⟨p, hp, hpmin⟩ := ht
  obtain ⟨q, hq, hqmin⟩ := hu
  have hpq : p = q := by
    rcases Nat.lt_trichotomy p q with h | h | h
    · exact absurd hp (hqmin p h t)
    · exact h
    · exact absurd hq (hpmin q h u)
  subst hpq
  obtain ⟨hn1, r1, e1⟩ := hp
  obtain ⟨hn2, r2, e2⟩ := hq
  exact number_fps_unique hn1 hn2 (e1.symm.trans e2)

theorem scanLines_skip (pre rest : List (List Char))
    (h : ∀ l ∈ pre, ¬ RateLine l) :
    scanLines (pre ++ rest) = scanLines rest := by
  induction pre with
  | nil => rfl
  | cons l pre ih =>
    have ih2 := ih (fun x hx => h x (List.mem_cons_of_mem _ hx))
    have hl := h l (List.mem_cons_self _ _)
    simp only [List.cons_append, scanLines]
    by_cases hs : hasPrefix l "Stream".data = true
    · rw [if_pos hs]
      cases hf : findStringSubmatch1 frameRateGroup frameRateTail l with
      | none => simpa using ih2
      | some t =>
        obtain ⟨p, hp, -⟩ := findStringSubmatch1_some hf
        exact absurd ⟨hs, p, t, hp⟩ hl
    · rw [if_neg hs]
      exact ih2

theorem scanLines_hit (line t : List Char) (rest : List (List Char))
    (hs : hasPrefix line "Stream".data = true) (ht : LeftmostRate line t) :
    scanLines (line :: rest) = t := by
  obtain ⟨u, hu⟩ := findStringSubmatch1_of_hasFps ⟨ht.choose, t, ht.choose_spec.1⟩
  have := leftmostRate_unique ht (findStringSubmatch1_some hu)
  subst this
  simp only [scanLines, if_pos hs, hu]

theorem scanLines_spec (lines : List (List Char)) :
    (∃ pre line post t, lines = pre ++ line :: post ∧ (∀ l ∈ pre, ¬ RateLine l) ∧
        hasPrefix line "Stream".data = true ∧ LeftmostRate line t ∧
        scanLines lines = t) ∨
    ((∀ l ∈ lines, ¬ RateLine l) ∧ scanLines lines = []) := by
  induction lines with
  | nil => right; exact ⟨by simp, rfl⟩
  | cons l ls ih =>
    by_cases hs : hasPrefix l "Stream".data = true
    · cases hf : findStringSubmatch1 frameRateGroup frameRateTail l with
      | some t =>
        left
        refine ⟨[], l, ls, t, rfl, by simp, hs, findStringSubmatch1_some hf, ?_⟩
        simp only [scanLines, if_pos hs, hf]
      | none =>
        have hl : ¬ RateLine l := fun h => findStringSubmatch1_none hf h.2
        have hstep : scanLines (l :: ls) = scanLines ls := by
          simp only [scanLines, if_pos hs, hf]
        rcases ih with ⟨pre, line, post, t, rfl, hpre, h1, h2, h3⟩ | ⟨hall, he⟩
        · left
          refine ⟨l :: pre, line, post, t, rfl, ?_, h1, h2, hstep.trans h3⟩
          intro x hx
          rcases List.mem_cons.1 hx with rfl | hx
          · exact hl
          · exact hpre x hx
        · right
          refine ⟨?_, hstep.trans he⟩
          intro x hx
          rcases List.mem_cons.1 hx with rfl | hx
          · exact hl
          · exact hall x hx
    · have hl : ¬ RateLine l := fun h => hs h.1
      have hstep : scanLines (l :: ls) = scanLines ls := by
        simp only [scanLines, if_neg hs]
      rcases ih with ⟨pre, line, post, t, rfl, hpre, h1, h2, h3⟩ | ⟨hall, he⟩
      · left
        refine ⟨l :: pre, line, post, t, rfl, ?_, h1, h2, hstep.trans h3⟩
        intro x hx
        rcases List.mem_cons.1 hx with rfl | hx
        · exact hl
        · exact hpre x hx
      · right
        refine ⟨?_, hstep.trans he⟩
        intro x hx
        rcases List.mem_cons.1 hx with rfl | hx
        · exact hl
        · exact hall x hx

theorem leftmostRate_ne_nil {line t : List Char} (h : LeftmostRate line t) : t ≠ [] := by
  obtain ⟨p, hp, -⟩ := h
  exact hp.1.ne_nil

/-! ## Frame-rate claims -/

/-- C2: `extractFrameRate` goes through the trimmed lines in order and returns
the number of the leftmost occurrence of "number immediately followed by
` fps`" on the first line that begins with `Stream` and has such an
occurrence; when there is no such line it returns the empty string.  Lines
that do not begin with `Stream` are passed over whatever they contain, and
for `23.976 fps` the number is `23.976`, not `976`. -/
theorem extractFrameRate_first_stream_line (out : String) :
    ((∃ pre line post t, trimmedLines out = pre ++ line :: post ∧
        (∀ l ∈ pre, ¬ RateLine l) ∧ RateLine line ∧ LeftmostRate line t ∧
        extractFrameRate out = String.mk t) ∨
      ((∀ l ∈ trimmedLines out, ¬ RateLine l) ∧ extractFrameRate out = "")) ∧
    (∀ pre rest : List (List Char), (∀ l ∈ pre, hasPrefix (trimSpace l) "Stream".data = false) →
      extractFrameRateLoop (pre ++ rest) = extractFrameRateLoop rest) ∧
    extractFrameRate "Stream #0:0: Video: h264, 23.976 fps" = "23.976" ∧
    extractFrameRate "Duration: 30 fps\n  Stream #0:0: Video: h264, 25 fps\n" = "25" := by
  refine ⟨?_, ?_, by decide, by decide⟩
  · rw [extractFrameRate_eq_scanLines]
    rcases scanLines_spec (trimmedLines out) with
      ⟨pre, line, post, t, h0, h1, h2, h3, h4⟩ | ⟨h1, h2⟩
    · left
      exact ⟨pre, line, post, t, h0, h1, ⟨h2, h3.choose, t, h3.choose_spec.1⟩, h3, by rw [h4]⟩
    · right
      exact ⟨h1, by rw [h2]⟩
  · intro pre rest h
    rw [extractFrameRateLoop_eq_scanLines, extractFrameRateLoop_eq_scanLines, List.map_append]
    refine scanLines_skip _ _ (fun l hl hr => ?_)
    obtain ⟨raw, hraw, rfl⟩ := List.mem_map.1 hl
    have := h raw hraw
    rw [hr.1] at this
    cases this

theorem extractFrameRate_eq_empty_iff (out : String) :
    extractFrameRate out = "" ↔ ∀ l ∈ trimmedLines out, ¬ RateLine l := by
  rw [extractFrameRate_eq_scanLines]
  rcases scanLines_spec (trimmedLines out) with
    ⟨pre, line, post, t, h0, h1, h2, h3, h4⟩ | ⟨h1, h2⟩
  · constructor
    · intro h
      rw [h4] at h
      have : t = [] := congrArg String.data h
      exact absurd this (leftmostRate_ne_nil h3)
    · intro h
      have hmem : line ∈ trimmedLines out := by rw [h0]; simp
      exact absurd ⟨h2, h3.choose, t, h3.choose_spec.1⟩ (h line hmem)
  · constructor
    · intro _; exact h1
    · intro _; rw [h2]

/-- C3: `extractFrames` fails exactly when the ffmpeg run reports an error or
no trimmed line of its diagnostic text begins with `Stream` and contains a
number (`digits` or `digits.digits`) immediately followed by ` fps`;
`extractFrameRate` returns the empty string exactly in the second case, and a
successful `extractFrames` returns the non-empty rate `extractFrameRate`
found. -/
theorem extractFrames_fails_iff (run : CmdResult) :
    ((∃ err, extractFrames run = .error err) ↔
      (run.err ≠ none ∨ ∀ l ∈ trimmedLines run.stderr, ¬ RateLine l)) ∧
    (extractFrameRate run.stderr = "" ↔ ∀ l ∈ trimmedLines run.stderr, ¬ RateLine l) ∧
    ((∃ l ∈ trimmedLines run.stderr, RateLine l) → extractFrameRate run.stderr ≠ "") ∧
    (∀ rate, extractFrames run = .ok rate →
      rate ≠ "" ∧ rate = extractFrameRate run.stderr ∧ run.err = none) := by
  have hiff := extractFrameRate_eq_empty_iff run.stderr
  refine ⟨?_, hiff, ?_, ?_⟩
  · unfold extractFrames
    cases herr : run.err with
    | some e => simp
    | none =>
      simp only [ne_eq, not_true_eq_false, false_or]
      rw [← hiff]
      by_cases he : extractFrameRate run.stderr = ""
      · simp [he]
      · simp [he]
  · rintro ⟨l, hl, hr⟩ he
    exact (hiff.1 he) l hl hr
  · intro rate h
    unfold extractFrames at h
    cases herr : run.err with
    | some e => rw [herr] at h; cases h
    | none =>
      rw [herr] at h
      by_cases he : extractFrameRate run.stderr = ""
      · simp [he] at h
      · simp only [he, if_false] at h
        cases h
        exact ⟨he, rfl, rfl⟩

/-- C3, at a concrete run: ffmpeg exits with status zero and its diagnostic
text has no line beginning with `Stream`, so `extractFrames` fails. -/
theorem extractFrames_fails_iff_witness :
    ∃ err, extractFrames ⟨none, "Duration: 00:00:01.00, 24 fps\n"⟩ = .error err :=
  (extractFrames_fails_iff ⟨none, "Duration: 00:00:01.00, 24 fps\n"⟩).1.2
    (Or.inr (fun l hl hr => by
      have h : extractFrameRate "Duration: 00:00:01.00, 24 fps\n" = "" := by decide
      exact (extractFrameRate_eq_empty_iff _).1 h l hl hr))

/-- C10 (as the claim states it, refuted): a diagnostic text with an audio
stream line that carries `5 fps` before the video stream line with `24 fps`;
`extractFrameRate` returns the audio line's `5`, not the video line's `24`. -/
theorem extractFrameRate_takes_earlier_stream_line :
    extractFrameRate
      "  Stream #0:0: Audio: aac, 5 fps\n  Stream #0:1: Video: h264, 640x480, 24 fps\n" = "5" ∧
    extractFrameRate
      "  Stream #0:0: Audio: aac, 5 fps\n  Stream #0:1: Video: h264, 640x480, 24 fps\n" ≠ "24" ∧
    extractFrameRate "  Stream #0:1: Video: h264, 640x480, 24 fps\n" = "24" := by
  decide

/-- C10 (amended): when no stream line before the video stream line carries a
number immediately followed by ` fps`, `extractFrameRate` returns the rate
written on the video stream line (the number of its leftmost `number fps`),
whatever the lines after it and the lines that do not begin with `Stream`
contain. -/
theorem extractFrameRate_video_line_first (out : String) (pre post : List (List Char))
    (video rate : List Char)
    (hlines : trimmedLines out = pre ++ video :: post)
    (hpre : ∀ l ∈ pre, ¬ RateLine l)
    (hstream : hasPrefix video "Stream".data = true)
    (hrate : LeftmostRate video rate) :
    extractFrameRate out = String.mk rate := by
  rw [extractFrameRate_eq_scanLines, hlines, scanLines_skip pre _ hpre, scanLines_hit video rate post hstream hrate]

/-- C10 (amended), at a concrete text: an audio stream line without a rate,
a line outside the stream descriptions with `30 fps`, then the video stream
line with `24 fps`, then another stream line with `5 fps`. -/
theorem extractFrameRate_video_line_first_witness :
    extractFrameRate
      "Stream #0:0: Audio: aac\nencoder 30 fps\nStream #0:1: Video: h264, 24 fps\nStream #0:2: 5 fps"
      = "24" :=
  extractFrameRate_video_line_first
    "Stream #0:0: Audio: aac\nencoder 30 fps\nStream #0:1: Video: h264, 24 fps\nStream #0:2: 5 fps"
    ["Stream #0:0: Audio: aac".data, "encoder 30 fps".data]
    ["Stream #0:2: 5 fps".data]
    "Stream #0:1: Video: h264, 24 fps".data "24".data
    (by decide)
    (by
      intro l hl
      simp only [List.mem_cons, List.mem_singleton, List.not_mem_nil, or_false] at hl
      rcases hl with rfl | rfl
      · exact fun h => findStringSubmatch1_none (by decide) h.2
      · exact fun h => absurd h.1 (by decide))
    (by decide)
    (findStringSubmatch1_some (by decide))

/-! ## `genRandom` and `resizeImages` -/

theorem wrapInt_of_range {v : Int} (h1 : -(2 : Int) ^ 63 ≤ v) (h2 : v < (2 : Int) ^ 63) :
    wrapInt v = v := by
  unfold wrapInt
  omega

theorem genRandom_fst (rand : RandSource) (calls : Nat) :
    (genRandom rand calls).1 = ((rand calls).val : Int) + 50 := by
  have h := (rand calls).isLt
  unfold genRandom addInt
  exact wrapInt_of_range (by omega) (by omega)

theorem resizeStep_random_sized (rand : RandSource) (i : Nat) (f : FrameInput)
    (st st1 : ResizeState) (h : resizeStep 1 rand i f st = .ok st1)
    (hst : ∀ r ∈ st.written, RandomSized r) : ∀ r ∈ st1.written, RandomSized r := by
  unfold resizeStep at h
  cases ho : f.opened with
  | error e => rw [ho] at h; cases h
  | ok b =>
    rw [ho] at h
    cases hw : f.writeErr with
    | some e =>
      by_cases hi : i = 0
      · simp [hi, hw] at h
      · simp [hi, hw, resizeSwitch] at h
    | none =>
      by_cases hi : i = 0
      · simp only [hi, if_true, hw] at h
        cases h
        intro r hr
        simp only [List.mem_append, List.mem_singleton] at hr
        rcases hr with hr | rfl
        · exact hst r hr
        · intro hren; cases hren
      · simp only [hi, if_false, hw, resizeSwitch, if_true] at h
        cases h
        intro r hr
        simp only [List.mem_append, List.mem_singleton] at hr
        rcases hr with hr | rfl
        · exact hst r hr
        · intro _
          have h1 := (rand st.calls).isLt
          have h2 := (rand (genRandom rand st.calls).2).isLt
          simp only [genRandom_fst]
          omega

theorem resizeLoop_random_sized (rand : RandSource) (fs : List FrameInput) :
    ∀ (i : Nat) (st : ResizeState), (∀ r ∈ st.written, RandomSized r) →
      ∀ r ∈ (resizeLoop 1 rand i fs st).1.written, RandomSized r := by
  induction fs with
  | nil => intro i st hst; simpa [resizeLoop] using hst
  | cons f fs ih =>
    intro i st hst
    unfold resizeLoop
    cases hs : resizeStep 1 rand i f st with
    | error e => simpa using hst
    | ok st1 => exact ih (i + 1) st1 (resizeStep_random_sized rand i f st st1 hs hst)

/-- C4: every size `genRandom` produces is the draw plus 50 and so lies in
`[50, 1049]` for every draw of `[0, 999]`; 50 is produced by the draw 0 and
1049 by the draw 999; in mode 1 the switch of `resizeImages` takes the width
from one draw and the height from the next one, and every frame image that
`resizeImages` resizes in mode 1 has width and height in `[50, 1049]`. -/
theorem genRandom_range (rand : RandSource) (calls : Nat) (st : ResizeState)
    (frames : List FrameInput) :
    (50 ≤ (genRandom rand calls).1 ∧ (genRandom rand calls).1 ≤ 1049) ∧
    (genRandom rand calls).1 = ((rand calls).val : Int) + 50 ∧
    (genRandom rand calls).2 = calls + 1 ∧
    (genRandom (fun _ => 0) calls).1 = 50 ∧
    (genRandom (fun _ => 999) calls).1 = 1049 ∧
    (resizeSwitch 1 rand st).img =
      some (((rand st.calls).val : Int) + 50, ((rand (st.calls + 1)).val : Int) + 50) ∧
    (resizeSwitch 1 rand st).calls = st.calls + 2 ∧
    (∀ r ∈ (resizeImages frames 1 rand calls).1.written, r.renamed = false →
      (50 ≤ r.width ∧ r.width ≤ 1049) ∧ (50 ≤ r.height ∧ r.height ≤ 1049)) := by
  have h := (rand calls).isLt
  refine ⟨?_, genRandom_fst rand calls, rfl, ?_, ?_, ?_, rfl, ?_⟩
  · rw [genRandom_fst]; omega
  · rw [genRandom_fst]; rfl
  · rw [genRandom_fst]; rfl
  · simp only [resizeSwitch, if_true, genRandom_fst]
    rfl
  · exact resizeLoop_random_sized rand frames 0 _ (by simp)

theorem resizeStep_growing (rand : RandSource) (i : Nat) (f : FrameInput) (st : ResizeState)
    (b : Int × Int) (hi : 0 < i) (ho : f.opened = .ok b) (hw : f.writeErr = none)
    (hx1 : -(2 : Int) ^ 63 ≤ st.x) (hx2 : st.x + 20 < (2 : Int) ^ 63)
    (hy1 : -(2 : Int) ^ 63 ≤ st.y) (hy2 : st.y + 20 < (2 : Int) ^ 63) :
    resizeStep 2 rand i f st =
      .ok { st with x := st.x + 20, y := st.y + 20, img := some (st.x + 20, st.y + 20),
                    written := st.written ++
                      [⟨f.base ++ ".png", f.base ++ "_r.png", st.x + 20, st.y + 20, false⟩] } := by
  have hi0 : i ≠ 0 := by omega
  have ex : addInt st.x 20 = st.x + 20 := wrapInt_of_range (by omega) hx2
  have ey : addInt st.y 20 = st.y + 20 := wrapInt_of_range (by omega) hy2
  simp [resizeStep, ho, hw, hi0, resizeSwitch, ex, ey]

theorem resizeLoop_growing (rand : RandSource) (fs : List FrameInput) :
    ∀ (i : Nat) (st : ResizeState), 0 < i →
      (∀ f ∈ fs, ∃ b, f.opened = .ok b) → (∀ f ∈ fs, f.writeErr = none) →
      -(2 : Int) ^ 63 ≤ st.x → st.x + 20 * (fs.length : Int) < (2 : Int) ^ 63 →
      -(2 : Int) ^ 63 ≤ st.y → st.y + 20 * (fs.length : Int) < (2 : Int) ^ 63 →
      (resizeLoop 2 rand i fs st).2 = none ∧
      (resizeLoop 2 rand i fs st).1.written = st.written ++ growingOutputs st.x st.y fs := by
  induction fs with
  | nil => intro i st _ _ _ _ _ _ _; simp [resizeLoop, growingOutputs]
  | cons f fs ih =>
    intro i st hi hopen hwrite hx1 hx2 hy1 hy2
    obtain ⟨b, hb⟩ := hopen f (List.mem_cons_self _ _)
    have hw := hwrite f (List.mem_cons_self _ _)
    simp only [List.length_cons, Nat.cast_add, Nat.cast_one] at hx2 hy2
    have hlen : (0 : Int) ≤ (fs.length : Int) := Int.ofNat_nonneg _
    unfold resizeLoop
    rw [resizeStep_growing rand i f st b hi hb hw hx1 (by omega) hy1 (by omega)]
    have := ih (i + 1)
      { st with x := st.x + 20, y := st.y + 20, img := some (st.x + 20, st.y + 20),
                written := st.written ++
                  [⟨f.base ++ ".png", f.base ++ "_r.png", st.x + 20, st.y + 20, false⟩] }
      (by omega) (fun g hg => hopen g (List.mem_cons_of_mem _ hg))
      (fun g hg => hwrite g (List.mem_cons_of_mem _ hg))
      (by simp only; omega) (by simp only; omega) (by simp only; omega) (by simp only; omega)
    simp only at this
    refine ⟨this.1, ?_⟩
    rw [this.2]
    simp [growingOutputs]

theorem growingOutputs_get (fs : List FrameInput) :
    ∀ (x y : Int) (k : Nat), k < fs.length →
      ∃ r, (growingOutputs x y fs)[k]? = some r ∧ r.renamed = false ∧
        r.width = x + 20 * ((k : Int) + 1) ∧ r.height = y + 20 * ((k : Int) + 1) := by
  induction fs with
  | nil => intro x y k hk; simp at hk
  | cons f fs ih =>
    intro x y k hk
    cases k with
    | zero =>
      exact ⟨⟨f.base ++ ".png", f.base ++ "_r.png", x + 20, y + 20, false⟩,
        by simp [growingOutputs], rfl, by simp, by simp⟩
    | succ k =>
      obtain ⟨r, h1, h2, h3, h4⟩ := ih (x + 20) (y + 20) k (by simpa using hk)
      refine ⟨r, by simpa [growingOutputs] using h1, h2, ?_, ?_⟩
      · rw [h3]; push_cast; ring
      · rw [h4]; push_cast; ring

/-- In mode 2, when every frame can be opened and written and the sizes stay
in the range of `int`, `resizeImages` returns `nil` after renaming frame 1 and
writing the frames after it as `growingOutputs` says. -/
theorem resizeImages_growing_written (f : FrameInput) (fs : List FrameInput) (rand : RandSource)
    (calls : Nat) (w h : Int) (hfirst : f.opened = .ok (w, h))
    (hopen : ∀ g ∈ f :: fs, ∃ b, g.opened = .ok b)
    (hwrite : ∀ g ∈ f :: fs, g.writeErr = none)
    (hw1 : -(2 : Int) ^ 63 ≤ w) (hw2 : w + 20 * (fs.length : Int) < (2 : Int) ^ 63)
    (hh1 : -(2 : Int) ^ 63 ≤ h) (hh2 : h + 20 * (fs.length : Int) < (2 : Int) ^ 63) :
    (resizeImages (f :: fs) 2 rand calls).2 = none ∧
    (resizeImages (f :: fs) 2 rand calls).1.written =
      ⟨f.base ++ ".png", f.base ++ "_r.png", w, h, true⟩ :: growingOutputs w h fs := by
  have hwf := hwrite f (List.mem_cons_self _ _)
  unfold resizeImages resizeLoop
  have hstep : resizeStep 2 rand 0 f ⟨0, 0, none, calls, []⟩ =
      .ok ⟨w, h, none, calls, [⟨f.base ++ ".png", f.base ++ "_r.png", w, h, true⟩]⟩ := by
    simp [resizeStep, hfirst, hwf]
  rw [hstep]
  have := resizeLoop_growing rand fs 1
    ⟨w, h, none, calls, [⟨f.base ++ ".png", f.base ++ "_r.png", w, h, true⟩]⟩ (by omega)
    (fun g hg => hopen g (List.mem_cons_of_mem _ hg))
    (fun g hg => hwrite g (List.mem_cons_of_mem _ hg)) hw1 hw2 hh1 hh2
  simpa using this

theorem growingOutputs_sizes (fs : List FrameInput) :
    ∀ x y : Int, (growingOutputs x y fs).map (fun r => (r.width, r.height)) =
      (List.range fs.length).map (fun k : Nat => (x + 20 * ((k : Int) + 1), y + 20 * ((k : Int) + 1))) := by
  induction fs with
  | nil => intro x y; rfl
  | cons f fs ih =>
    intro x y
    simp only [growingOutputs, List.map_cons, List.length_cons, List.range_succ_eq_map,
      List.map_map, ih]
    refine congrArg₂ _ (by simp) (List.map_congr_left (fun k _ => ?_))
    simp only [Function.comp, Nat.cast_succ, Prod.mk.injEq]
    constructor <;> ring

theorem baseline_cons_sizes (w h : Int) (n : Nat) :
    (w, h) :: (List.range n).map (fun k : Nat => (w + 20 * ((k : Int) + 1), h + 20 * ((k : Int) + 1))) =
      (List.range (n + 1)).map (fun k : Nat => (w + 20 * (k : Int), h + 20 * (k : Int))) := by
  simp only [List.range_succ_eq_map, List.map_cons, List.map_map]
  refine congrArg₂ _ (by simp) (List.map_congr_left (fun k _ => ?_))
  simp [Function.comp]

/-- C1: in mode 2, for a non-empty list of `N` frames whose first frame has
pixel size `(w, h)`, when every frame can be opened and written and the sizes
stay in the range of `int`, `resizeImages` returns `nil` and gives frame `k`
(1-based) the size `(w + 20*(k-1), h + 20*(k-1))`: frame 1 keeps `(w, h)` and
each later frame is exactly 20 wider and 20 taller than the one before, so
the sizes strictly increase. -/
theorem resizeImages_growing_sizes (frames : List FrameInput) (rand : RandSource) (calls : Nat)
    (w h : Int)
    (hfirst : ∃ f rest, frames = f :: rest ∧ f.opened = .ok (w, h))
    (hopen : ∀ g ∈ frames, ∃ b, g.opened = .ok b)
    (hwrite : ∀ g ∈ frames, g.writeErr = none)
    (hw : 0 ≤ w ∧ w + 20 * ((frames.length : Int) - 1) < (2 : Int) ^ 63)
    (hh : 0 ≤ h ∧ h + 20 * ((frames.length : Int) - 1) < (2 : Int) ^ 63) :
    (resizeImages frames 2 rand calls).2 = none ∧
    sizesOf (resizeImages frames 2 rand calls).1 =
      (List.range frames.length).map (fun k : Nat => (w + 20 * (k : Int), h + 20 * (k : Int))) ∧
    (sizesOf (resizeImages frames 2 rand calls).1)[0]? = some (w, h) ∧
    (∀ k, 1 ≤ k → k ≤ frames.length →
      (sizesOf (resizeImages frames 2 rand calls).1)[k - 1]? =
        some (w + 20 * ((k : Int) - 1), h + 20 * ((k : Int) - 1))) ∧
    (∀ k, k + 1 < frames.length → ∃ a b,
      (sizesOf (resizeImages frames 2 rand calls).1)[k]? = some a ∧
      (sizesOf (resizeImages frames 2 rand calls).1)[k + 1]? = some b ∧
      b = (a.1 + 20, a.2 + 20) ∧ a.1 < b.1 ∧ a.2 < b.2) := by
  obtain ⟨f, fs, rfl, hf⟩ := hfirst
  have hlen : ((f :: fs).length : Int) - 1 = (fs.length : Int) := by simp
  rw [hlen] at hw hh
  obtain ⟨hnil, hwr⟩ := resizeImages_growing_written f fs rand calls w h hf hopen hwrite
    (by omega) hw.2 (by omega) hh.2
  have hsizes : sizesOf (resizeImages (f :: fs) 2 rand calls).1 =
      (List.range (f :: fs).length).map (fun k : Nat => (w + 20 * (k : Int), h + 20 * (k : Int))) := by
    unfold sizesOf
    rw [hwr, List.map_cons, growingOutputs_sizes, List.length_cons, ← baseline_cons_sizes]
  refine ⟨hnil, hsizes, ?_, ?_, ?_⟩
  · rw [hsizes]; simp
  · intro k hk1 hkN
    rw [hsizes, List.getElem?_map, List.getElem?_range (by omega)]
    have : ((k - 1 : Nat) : Int) = (k : Int) - 1 := by omega
    simp [this]
  · intro k hk
    refine ⟨(w + 20 * (k : Int), h + 20 * (k : Int)),
      (w + 20 * ((k + 1 : Nat) : Int), h + 20 * ((k + 1 : Nat) : Int)), ?_, ?_, ?_, ?_, ?_⟩
    · rw [hsizes, List.getElem?_map, List.getElem?_range (by omega)]; rfl
    · rw [hsizes, List.getElem?_map, List.getElem?_range (by omega)]; rfl
    · simp only [Nat.cast_add, Nat.cast_one, Prod.mk.injEq]
      constructor <;> ring
    · simp only [Nat.cast_add, Nat.cast_one]; omega
    · simp only [Nat.cast_add, Nat.cast_one]; omega

/-- C1, at the spec's scenario: 10 frames of 640x480 in mode 2 get the sizes
640x480, 660x500, 680x520, ..., 820x660. -/
theorem resizeImages_growing_sizes_witness :
    sizesOf (resizeImages (List.replicate 10 ⟨"out", .ok (640, 480), none⟩) 2 (fun _ => 0) 0).1 =
      [(640, 480), (660, 500), (680, 520), (700, 540), (720, 560), (740, 580), (760, 600),
       (780, 620), (800, 640), (820, 660)] :=
  (resizeImages_growing_sizes (List.replicate 10 ⟨"out", .ok (640, 480), none⟩) (fun _ => 0) 0
    640 480 ⟨_, _, rfl, rfl⟩
    (fun g hg => ⟨(640, 480), by rw [List.eq_of_mem_replicate hg]⟩)
    (fun g hg => by rw [List.eq_of_mem_replicate hg])
    (by norm_num) (by norm_num)).2.1.trans (by decide)

/-- C9 (as the claim states it, refuted): with two frames and the baseline
640x480 the target of frame 2 is 660x500, not baseline + 20*2 = 680x520. -/
theorem resizeImages_growing_frame2_not_plus40 :
    sizesOf (resizeImages [⟨"out0001", .ok (640, 480), none⟩, ⟨"out0002", .ok (640, 480), none⟩]
      2 (fun _ => 0) 0).1 = [(640, 480), (660, 500)] ∧
    (sizesOf (resizeImages [⟨"out0001", .ok (640, 480), none⟩, ⟨"out0002", .ok (640, 480), none⟩]
      2 (fun _ => 0) 0).1)[2 - 1]? ≠ some (640 + 20 * 2, 480 + 20 * 2) := by
  decide

/-- C9 (amended): in mode 2, with frames numbered from 1 and the baseline
`(w, h)` taken from frame 1, the increments of 20 are cumulative and the
target size of every frame `k ≥ 2`, the size `imaging.Resize` is asked for,
is baseline + 20*(k-1), that is `(w + 20*(k-1), h + 20*(k-1))` (when every
frame can be opened and written and the sizes stay in the range of `int`). -/
theorem resizeImages_growing_target (frames : List FrameInput) (rand : RandSource) (calls : Nat)
    (w h : Int) (k : Nat)
    (hfirst : ∃ f rest, frames = f :: rest ∧ f.opened = .ok (w, h))
    (hopen : ∀ g ∈ frames, ∃ b, g.opened = .ok b)
    (hwrite : ∀ g ∈ frames, g.writeErr = none)
    (hw : 0 ≤ w ∧ w + 20 * ((frames.length : Int) - 1) < (2 : Int) ^ 63)
    (hh : 0 ≤ h ∧ h + 20 * ((frames.length : Int) - 1) < (2 : Int) ^ 63)
    (hk2 : 2 ≤ k) (hkN : k ≤ frames.length) :
    ∃ r, (resizeImages frames 2 rand calls).1.written[k - 1]? = some r ∧ r.renamed = false ∧
      r.width = w + 20 * ((k : Int) - 1) ∧ r.height = h + 20 * ((k : Int) - 1) := by
  obtain ⟨f, fs, rfl, hf⟩ := hfirst
  have hlen : ((f :: fs).length : Int) - 1 = (fs.length : Int) := by simp
  rw [hlen] at hw hh
  obtain ⟨-, hwr⟩ := resizeImages_growing_written f fs rand calls w h hf hopen hwrite
    (by omega) hw.2 (by omega) hh.2
  simp only [List.length_cons] at hkN
  obtain ⟨r, h1, h2, h3, h4⟩ := growingOutputs_get fs w h (k - 2) (by omega)
  have hk : k - 1 = (k - 2) + 1 := by omega
  have hc : ((k - 2 : Nat) : Int) + 1 = (k : Int) - 1 := by omega
  refine ⟨r, ?_, h2, by rw [h3, hc], by rw [h4, hc]⟩
  rw [hwr, hk, List.getElem?_cons_succ]
  exact h1

/-- C9 (amended), at three frames with baseline 640x480: frame 3 is asked to
be 680x520. -/
theorem resizeImages_growing_target_witness :
    ∃ r, (resizeImages (List.replicate 3 ⟨"out", .ok (640, 480), none⟩) 2 (fun _ => 0)
        0).1.written[3 - 1]? = some r ∧ r.renamed = false ∧
      r.width = 640 + 20 * (((3 : Nat) : Int) - 1) ∧ r.height = 480 + 20 * (((3 : Nat) : Int) - 1) :=
  resizeImages_growing_target (List.replicate 3 ⟨"out", .ok (640, 480), none⟩) (fun _ => 0) 0
    640 480 3 ⟨_, _, rfl, rfl⟩
    (fun g hg => ⟨(640, 480), by rw [List.eq_of_mem_replicate hg]⟩)
    (fun g hg => by rw [List.eq_of_mem_replicate hg])
    (by norm_num) (by norm_num) (by decide) (by decide)

/-! ## `parseArgs` and `makeDirs` -/

/-- C5: `parseArgs` accepts the parsed arguments exactly when the mode is 1
or 2 and the output path ends with `.webm`, and then returns them unchanged;
every other pair is rejected with an error, and `main` then panics without
having made a single call (no directory, no scratch directory, no
subprocess).  Mode 3 and the output path `out.mp4` are rejected. -/
theorem parseArgs_accepts_iff (args : Args) (w : World) :
    (parseArgs args = .ok args ↔
      ((args.Mode = 1 ∨ args.Mode = 2) ∧ ∃ stem, args.OutPath.data = stem ++ ".webm".data)) ∧
    (parseArgs args = .ok args ∨
      ∃ err, parseArgs args = .error err ∧
        main args w = ([], .panic (handleErr "Failed to parse args." err))) ∧
    parseArgs ⟨"in.mp4", 3, "out.webm"⟩ = .error "Mode must me 1 or 2." ∧
    parseArgs ⟨"in.mp4", 1, "out.mp4"⟩ = .error "Output file extension must be \".webm\"." ∧
    (main ⟨"in.mp4", 3, "out.webm"⟩ w).1 = [] ∧
    (main ⟨"in.mp4", 1, "out.mp4"⟩ w).1 = [] := by
  have hsuf : hasSuffix args.OutPath.data ".webm".data = true ↔
      ∃ stem, args.OutPath.data = stem ++ ".webm".data := by
    unfold hasSuffix
    rw [List.isSuffixOf_iff_suffix]
    constructor
    · rintro ⟨t, ht⟩; exact ⟨t, ht.symm⟩
    · rintro ⟨t, ht⟩; exact ⟨t, ht.symm⟩
  refine ⟨?_, ?_, rfl, rfl, rfl, rfl⟩
  · rw [← hsuf]
    unfold parseArgs
    by_cases hm : args.Mode = 1 ∨ args.Mode = 2
    · by_cases hs : hasSuffix args.OutPath.data ".webm".data = true
      · simp [hm, hs]
      · simp [hm, hs]
    · simp [hm]
  · unfold main parseArgs
    by_cases hm : args.Mode = 1 ∨ args.Mode = 2
    · by_cases hs : hasSuffix args.OutPath.data ".webm".data = true
      · left; simp [hm, hs]
      · right
        exact ⟨"Output file extension must be \".webm\".", by simp [hm, hs], by simp [hm, hs]⟩
    · right; exact ⟨"Mode must me 1 or 2.", by simp [hm], by simp [hm]⟩

theorem dropWhile_slash_of_not_mem (l : List Char) (h : '/' ∉ l) :
    l.dropWhile (fun c => c == '/') = l := by
  cases l with
  | nil => rfl
  | cons a l =>
    have ha : a ≠ '/' := fun e => h (by simp [e])
    simp [List.dropWhile_cons, ha]

theorem filepathBase_bare (path : List Char) (hne : path ≠ []) (hns : '/' ∉ path) :
    filepathBase path = path := by
  have hr : '/' ∉ path.reverse := by simpa using hns
  unfold filepathBase
  simp only [if_neg hne, dropWhile_slash_of_not_mem _ hr, List.reverse_reverse]
  have ht : path.reverse.takeWhile (fun c => c != '/') = path.reverse := by
    rw [List.takeWhile_eq_self_iff]
    intro x hx
    have : x ≠ '/' := fun e => hr (e ▸ hx)
    simpa using this
  simp only [ht, List.reverse_reverse, if_neg hne]

/-- C8 (the code at the failing input): for the output path `a/b/out.webm`
`makeDirs` calls `os.MkdirAll` on the output path itself, which makes a
directory named `a/b/out.webm` (and its parents), although `main` later hands
the same path to ffmpeg as the output file; for a bare file name (not empty,
no separator in it), such as `out.webm`, it makes no call and returns
`nil`. -/
theorem makeDirs_nested_output_path (w : World) :
    makeDirs "a/b/out.webm" none = ([Effect.mkdirAll "a/b/out.webm" 0o755], none) ∧
    makeDirs "a/b/out.webm" none ≠ ([Effect.mkdirAll "a/b" 0o755], none) ∧
    (main ⟨"in.mp4", 1, "a/b/out.webm"⟩ w).1.head? = some (Effect.mkdirAll "a/b/out.webm" 0o755) ∧
    Effect.exec "ffmpeg" (concatArgs "/tmp/1/concat.txt" "a/b/out.webm") ∈
      (main ⟨"in.mp4", 1, "a/b/out.webm"⟩ (sampleWorld 2)).1 ∧
    makeDirs "out.webm" none = ([], none) ∧
    (∀ (path : String) (mkdirAllErr : Option String), path ≠ "" → '/' ∉ path.data →
      makeDirs path mkdirAllErr = ([], none)) := by
  refine ⟨by decide, by decide, ?_, by decide, by decide, ?_⟩
  · have hp : parseArgs ⟨"in.mp4", 1, "a/b/out.webm"⟩ = .ok ⟨"in.mp4", 1, "a/b/out.webm"⟩ := rfl
    have hm : ∀ e, makeDirs "a/b/out.webm" e = ([Effect.mkdirAll "a/b/out.webm" 0o755], e) := by
      intro e
      have h : String.mk (filepathBase "a/b/out.webm".data) ≠ "a/b/out.webm" := by decide
      simp [makeDirs, h]
    unfold main
    rw [hp]
    simp only [hm]
    cases w.mkdirAllErr with
    | some e => rfl
    | none =>
      cases w.mkdirTemp with
      | error e => rfl
      | ok t => rfl
  · intro path e hne hns
    have hd : path.data ≠ [] := fun h => hne (by cases path; simp_all)
    simp [makeDirs, filepathBase_bare path.data hd hns]

/-! ## `getFrameBases` -/

theorem frameBasesFrom_eq (tempPath : String) (n : Nat) :
    ∀ i, frameBasesFrom tempPath i n =
      (List.range n).map (fun k : Nat => filepathJoin tempPath ("out" ++ sprintf04d (k + i))) := by
  induction n with
  | zero => intro i; rfl
  | succ n ih =>
    intro i
    simp only [frameBasesFrom, ih, List.range_succ_eq_map, List.map_cons, List.map_map]
    refine congrArg₂ _ (by rw [Nat.zero_add]) (List.map_congr_left (fun k _ => ?_))
    simp only [Function.comp]
    rw [show k + (i + 1) = k.succ + i by omega]

theorem sprintf04d_length (k : Nat) : 4 ≤ (sprintf04d k).length := by
  unfold sprintf04d
  simp only [String.length_mk, List.length_append, List.length_replicate]
  omega

/-- C6: for a readable scratch directory with `N` entries, `getFrameBases`
returns exactly `N` frame bases, the `k`-th (`k = 1..N`) being the scratch
path joined with `out` followed by `k` in decimal, padded with zeros to at
least 4 digits; the list depends only on `N` and the scratch path, so two
listings of the same length give the same list whatever their entries and
order; when the directory cannot be read the error is returned and no
list. -/
theorem getFrameBases_numbered (tempPath : String) (files : List String) (err : String) :
    getFrameBases tempPath (.ok files) =
      .ok ((List.range files.length).map
        (fun k : Nat => filepathJoin tempPath ("out" ++ sprintf04d (k + 1)))) ∧
    (∃ bases, getFrameBases tempPath (.ok files) = .ok bases ∧ bases.length = files.length ∧
      ∀ k, 1 ≤ k → k ≤ files.length →
        bases[k - 1]? = some (filepathJoin tempPath ("out" ++ sprintf04d k))) ∧
    (∀ k, sprintf04d k =
        String.mk (List.replicate (4 - (Nat.repr k).length) '0') ++ Nat.repr k ∧
      4 ≤ (sprintf04d k).length) ∧
    (∀ files2 : List String, files2.length = files.length →
      getFrameBases tempPath (.ok files2) = getFrameBases tempPath (.ok files)) ∧
    getFrameBases tempPath (.error err) = .error err ∧
    sprintf04d 7 = "0007" ∧ sprintf04d 12345 = "12345" ∧
    getFrameBases "/tmp/1" (.ok ["out0002.png", "out0003.png", "out0001.png"]) =
      .ok ["/tmp/1/out0001", "/tmp/1/out0002", "/tmp/1/out0003"] := by
  have hmain : getFrameBases tempPath (.ok files) =
      .ok ((List.range files.length).map
        (fun k : Nat => filepathJoin tempPath ("out" ++ sprintf04d (k + 1)))) := by
    simp only [getFrameBases, frameBasesFrom_eq]
  refine ⟨hmain, ⟨_, hmain, by simp, ?_⟩, fun k => ⟨rfl, sprintf04d_length k⟩, ?_, rfl,
    by decide, by decide,
    congrArg Except.ok (by decide : frameBasesFrom "/tmp/1" 1 3 =
      ["/tmp/1/out0001", "/tmp/1/out0002", "/tmp/1/out0003"])⟩
  · intro k hk1 hkN
    rw [List.getElem?_map, List.getElem?_range (by omega)]
    simp only [Option.map_some']
    rw [show k - 1 + 1 = k by omega]
  · intro files2 h
    simp only [getFrameBases, h]

/-! ## `concatWebms` -/

theorem writeManifest_ok (writeErr : Nat → Option String) (bases : List String) :
    ∀ i, (∀ j < bases.length, writeErr (i + j) = none) →
      writeManifest writeErr i bases =
        ((bases.map (fun b => "file '" ++ b ++ ".webm'\n")).foldr (fun l r => l ++ r) "", none) := by
  induction bases with
  | nil => intro i _; rfl
  | cons b bs ih =>
    intro i h
    have h0 : writeErr i = none := by simpa using h 0 (by simp)
    have ih2 := ih (i + 1) (fun j hj => by
      have := h (j + 1) (by simpa using hj)
      rwa [show i + 1 + j = i + (j + 1) by omega])
    simp only [writeManifest, h0, ih2, List.map_cons, List.foldr_cons, manifestLine]

/-- C7: when the manifest file can be opened and every write succeeds, the
text `concatWebms` writes is exactly the concatenation, in list order, of the
lines `file '<base>.webm'` with a line feed after each, one per frame base;
with the bases of `getFrameBases` the `k`-th line names the clip of frame
number `k`. -/
theorem concatWebms_manifest (frameBases : List String) (writeErr : Nat → Option String)
    (run : CmdResult) (hwrite : ∀ i < frameBases.length, writeErr i = none) :
    (concatWebms frameBases none writeErr run).manifest =
      some ((frameBases.map (fun b => "file '" ++ b ++ ".webm'\n")).foldr (fun l r => l ++ r) "") ∧
    (concatWebms frameBases none writeErr run).ranFfmpeg = true ∧
    (∀ (tempPath : String) (files : List String),
      getFrameBases tempPath (.ok files) = .ok frameBases →
      (concatWebms frameBases none writeErr run).manifest =
        some (((List.range files.length).map (fun k : Nat =>
          "file '" ++ filepathJoin tempPath ("out" ++ sprintf04d (k + 1)) ++ ".webm'\n")).foldr
            (fun l r => l ++ r) "")) := by
  have hw := writeManifest_ok writeErr frameBases 0 (fun j hj => by simpa using hwrite j hj)
  have h1 : (concatWebms frameBases none writeErr run).manifest =
      some ((frameBases.map (fun b => "file '" ++ b ++ ".webm'\n")).foldr
        (fun l r => l ++ r) "") := by
    unfold concatWebms
    simp only [hw]
    cases run.err <;> rfl
  refine ⟨h1, ?_, ?_⟩
  · unfold concatWebms
    simp only [hw]
    cases run.err <;> rfl
  · intro tempPath files hb
    rw [h1]
    have := (frameBasesFrom_eq tempPath files.length 1)
    unfold getFrameBases at hb
    simp only [Except.ok.injEq] at hb
    rw [← hb, this, List.map_map]
    rfl

/-- C7, at three frame bases of the scratch directory `/tmp/1`. -/
theorem concatWebms_manifest_witness :
    (concatWebms ["/tmp/1/out0001", "/tmp/1/out0002", "/tmp/1/out0003"] none (fun _ => none)
      ⟨none, ""⟩).manifest =
      some "file '/tmp/1/out0001.webm'\nfile '/tmp/1/out0002.webm'\nfile '/tmp/1/out0003.webm'\n" :=
  (concatWebms_manifest ["/tmp/1/out0001", "/tmp/1/out0002", "/tmp/1/out0003"] (fun _ => none)
    ⟨none, ""⟩ (fun _ _ => rfl)).1.trans (by decide)

end WebmDynRes
